import Mathlib

/-!
Shallow embedding of the Minesweeper rule engine found in `Minesweeper.py`
(the single source file of the Pynesweeper repository), together with
theorems settling the specification claims about it.

The Python program keeps its engine state in module-level globals:
`spaces` (a `BOARD_WIDTH × BOARD_HEIGHT` 2d list of dicts
`{"type": Piece, "count": int, "flag": bool}`, indexed `spaces[x][y]`) and
`pieces_left` (an int).  We embed that state as `BoardState` below, with
`spaces` as a total function from integer coordinate pairs (Python list
indexing is only ever performed after an explicit bounds check in the
engine paths we model).  Board dimensions `BOARD_WIDTH`/`BOARD_HEIGHT` are
the parameters `W H` threaded through every definition.

GUI side effects (tkinter frames, labels, colors, popups) are dropped;
the `GameOver`/`GameWin` popups are modelled as the `Outcome` value of a
click, since neither mutates `spaces` or `pieces_left`.
-/

namespace Pynesweeper

/-- The `Piece` enum of the source (`HIDDEN = 0`, `EMPTY = 1`, `MINE = 2`).
`HIDDEN` is a hidden non-mine cell, `EMPTY` a revealed cell, `MINE` a mine
(mines are never revealed; a clicked mine triggers `GameOver` instead). -/
inductive Piece where
  | HIDDEN : Piece
  | EMPTY : Piece
  | MINE : Piece
deriving DecidableEq

/-- One entry of the `spaces` 2d list: the dict
`{"type": Piece.HIDDEN, "count": 0, "flag": False}` built by `ClearBoard`. -/
structure Space where
  type : Piece
  count : Nat
  flag : Bool
deriving DecidableEq

/-- The mutable engine state: the `spaces` grid plus the `pieces_left`
counter (non-mine pieces still hidden, displayed and used for the win
check). -/
structure BoardState where
  spaces : ℤ × ℤ → Space
  piecesLeft : ℤ

/-- Bounds check used throughout the source:
`x >= 0 and x < BOARD_WIDTH and y >= 0 and y < BOARD_HEIGHT`. -/
def inB (W H : ℕ) (p : ℤ × ℤ) : Prop :=
  0 ≤ p.1 ∧ p.1 < (W : ℤ) ∧ 0 ≤ p.2 ∧ p.2 < (H : ℤ)

instance inB.instDecidable (W H : ℕ) (p : ℤ × ℤ) : Decidable (inB W H p) := by
  unfold inB
  infer_instance

/-- Pointwise functional update of the `spaces` grid, the embedding of an
in-place assignment `spaces[x][y][...] = ...`. -/
def updSpace (s : BoardState) (p : ℤ × ℤ) (v : Space) : BoardState :=
  { s with spaces := fun q => if q = p then v else s.spaces q }

/-- The eight Moore neighbours of a coordinate, in the exact order the
source enumerates them (both in `GenerateBoard`'s `AddCount` calls and in
`RevealEmpty`'s recursive calls). -/
def nbrs (p : ℤ × ℤ) : List (ℤ × ℤ) :=
  [(p.1 - 1, p.2 - 1), (p.1 - 1, p.2), (p.1 - 1, p.2 + 1),
   (p.1, p.2 - 1), (p.1, p.2 + 1),
   (p.1 + 1, p.2 - 1), (p.1 + 1, p.2), (p.1 + 1, p.2 + 1)]

/-- The flood-fill `RevealEmpty(x, y)` of the source.  The Python function
recurses natively; recursion depth is bounded because each productive call
flips one `HIDDEN` cell to `EMPTY` before recursing, so a fuel of
`hidden cells + 1` is always enough (`boardFuel` below over-approximates
this by `W*H + 1`).  Body, in source order: bounds check; if the piece is
`HIDDEN`: clear its flag if set, set it to `EMPTY`, recurse over all
eight neighbours (threading the state through them in source order) when
`count == 0`, then decrement `pieces_left` (the decrement comes after the
recursion in the source; the final state is the same either way, and we
keep the source order). -/
def revealEmpty (W H : ℕ) : ℕ → BoardState → ℤ × ℤ → BoardState
  | 0, s, _ => s
  | fuel + 1, s, p =>
    if inB W H p then
      if (s.spaces p).type = Piece.HIDDEN then
        -- flag removal (`piece["flag"] = False`) then `piece["type"] = Piece.EMPTY`
        let s1 := updSpace s p { s.spaces p with type := Piece.EMPTY, flag := false }
        -- count > 0: only a GUI label is created; count = 0: recursive reveal
        let s2 := if (s.spaces p).count > 0 then s1
          else (nbrs p).foldl (fun t q => revealEmpty W H fuel t q) s1
        -- `pieces_left -= 1` (the win popup is modelled by `clickSpace`'s outcome)
        { s2 with piecesLeft := s2.piecesLeft - 1 }
      else s
    else s

/-- Runs `revealEmpty` over a list of coordinates in order, threading the
state: the source writes the eight recursive `RevealEmpty` calls out one
after the other. -/
def revealList (W H : ℕ) (fuel : ℕ) (s : BoardState) (l : List (ℤ × ℤ)) : BoardState :=
  l.foldl (fun t q => revealEmpty W H fuel t q) s

/-- Fuel sufficient for any flood fill on a `W × H` board. -/
def boardFuel (W H : ℕ) : ℕ := W * H + 1

/-- Result of a left click, standing in for the source's side effects:
`quiet` for the silent cases, `lost` for the `GameOver(x, y)` popup,
`won` for the `GameWin()` popup fired when `pieces_left` reaches 0. -/
inductive Outcome where
  | quiet : Outcome
  | lost : Outcome
  | won : Outcome
deriving DecidableEq

/-- The `ClickSpace` event handler of the source (coordinates always come
from the clicked widget's grid info, hence are in bounds).  Source order:
a flagged piece is ignored; a mine triggers `GameOver`; a hidden piece is
revealed via `RevealEmpty`; a revealed piece is ignored.  `GameWin()` is
invoked inside `RevealEmpty` as soon as `pieces_left <= 0` after a
decrement; since `pieces_left` only ever decreases during the fill, that
happens during the call if and only if the final value is `<= 0`, which
is how the `won` outcome is computed here. -/
def clickSpace (W H : ℕ) (s : BoardState) (p : ℤ × ℤ) : BoardState × Outcome :=
  if (s.spaces p).flag then (s, Outcome.quiet)
  else if (s.spaces p).type = Piece.MINE then (s, Outcome.lost)
  else if (s.spaces p).type = Piece.HIDDEN then
    let t := revealEmpty W H (boardFuel W H) s p
    (t, if t.piecesLeft ≤ 0 then Outcome.won else Outcome.quiet)
  else (s, Outcome.quiet)

/-- The `RightClickSpace` event handler of the source: on a `MINE` or
`HIDDEN` piece, toggle its flag; on a revealed piece, do nothing. -/
def rightClickSpace (s : BoardState) (p : ℤ × ℤ) : BoardState :=
  if (s.spaces p).type = Piece.MINE ∨ (s.spaces p).type = Piece.HIDDEN then
    updSpace s p { s.spaces p with flag := !(s.spaces p).flag }
  else s

/-- The `AddCount(x, y)` helper of the source: bounds-checked increment of
a cell's adjacent-mine count. -/
def addCount (W H : ℕ) (s : BoardState) (q : ℤ × ℤ) : BoardState :=
  if inB W H q then updSpace s q { s.spaces q with count := (s.spaces q).count + 1 } else s

/-- Folding `AddCount` over a list of coordinates, as `GenerateBoard` does
over the eight neighbours of each placed mine. -/
def addCounts (W H : ℕ) (s : BoardState) (l : List (ℤ × ℤ)) : BoardState :=
  l.foldl (addCount W H) s

/-- One mine placement of `GenerateBoard`: set the chosen space's type to
`Piece.MINE`, then add 1 to each surrounding space. -/
def placeMineAt (W H : ℕ) (s : BoardState) (p : ℤ × ℤ) : BoardState :=
  addCounts W H (updSpace s p { s.spaces p with type := Piece.MINE }) (nbrs p)

/-- The rejection-sampling loop of `GenerateBoard`: keep drawing random
spots until one is not already a mine.  The infinite stream of `randint`
draws is modelled by an explicit list; `none` models the (probability
zero under a fair generator) event that the supplied draws never hit a
non-mine spot. -/
def pickSpot (s : BoardState) : List (ℤ × ℤ) → Option ((ℤ × ℤ) × List (ℤ × ℤ))
  | [] => none
  | d :: rest => if (s.spaces d).type = Piece.MINE then pickSpot s rest else some (d, rest)

/-- The `for i in range(TOTAL_MINES)` placement loop of `GenerateBoard`. -/
def placeMines (W H : ℕ) : ℕ → BoardState → List (ℤ × ℤ) → Option BoardState
  | 0, s, _ => some s
  | n + 1, s, draws =>
    match pickSpot s draws with
    | none => none
    | some (d, rest) => placeMines W H n (placeMineAt W H s d) rest

/-- The fresh grid returned by `ClearBoard`: every space
`{"type": Piece.HIDDEN, "count": 0, "flag": False}`. -/
def clearSpaces : ℤ × ℤ → Space := fun _ => ⟨Piece.HIDDEN, 0, false⟩

/-- The state-relevant part of `GenerateBoard`: reset `spaces` via
`ClearBoard`, reset `pieces_left = BOARD_HEIGHT * BOARD_WIDTH - TOTAL_MINES`,
then place `TOTAL_MINES` mines by rejection sampling over the draws. -/
def generateBoard (W H M : ℕ) (draws : List (ℤ × ℤ)) : Option BoardState :=
  placeMines W H M { spaces := clearSpaces, piecesLeft := (H : ℤ) * W - M } draws

/-- The startup validation of `TOTAL_MINES` (module top level of the
source): if it exceeds `BOARD_HEIGHT * BOARD_WIDTH`, print a diagnostic
and set it to the board size. -/
def startupMines (BOARD_WIDTH BOARD_HEIGHT TOTAL_MINES : ℤ) : ℤ :=
  if TOTAL_MINES > BOARD_HEIGHT * BOARD_WIDTH then BOARD_HEIGHT * BOARD_WIDTH
  else TOTAL_MINES

/-- The mine-count update of `NewGame`, verbatim from the source:
`if new_m <= new_w * new_h: TOTAL_MINES = new_m`, and otherwise the
assignment `TOTAL_MINES = new_m * new_h` sits under `elif PRINT_DEBUG_INFO`
after the debug print, so with debug printing off the old `TOTAL_MINES`
is kept. -/
def newGameMines (TOTAL_MINES new_w new_h new_m : ℤ) (PRINT_DEBUG_INFO : Bool) : ℤ :=
  if new_m ≤ new_w * new_h then new_m
  else if PRINT_DEBUG_INFO then new_m * new_h
  else TOTAL_MINES

/-- The grid of in-bounds coordinates as a finite set. -/
def gridPts (W H : ℕ) : Finset (ℤ × ℤ) :=
  (Finset.range W ×ˢ Finset.range H).image fun ij => ((ij.1 : ℤ), (ij.2 : ℤ))

/-- Number of in-bounds cells currently carrying a given piece type. -/
def countIn (W H : ℕ) (s : BoardState) (t : Piece) : ℕ :=
  ((gridPts W H).filter fun p => (s.spaces p).type = t).card

/-- Number of in-bounds Moore neighbours of `p` that are mines: the
quantity `AddCount` accumulates into `count` during generation. -/
def adjMines (W H : ℕ) (s : BoardState) (p : ℤ × ℤ) : ℕ :=
  ((nbrs p).filter fun q => decide (inB W H q) && decide ((s.spaces q).type = Piece.MINE)).length

/-- Adjacency-count consistency: every in-bounds cell's `count` equals the
number of mines in its edge-clipped Moore neighbourhood. -/
def consistent (W H : ℕ) (s : BoardState) : Prop :=
  ∀ p ∈ gridPts W H, (s.spaces p).count = adjMines W H s p

instance consistent.instDecidable (W H : ℕ) (s : BoardState) :
    Decidable (consistent W H s) := by
  unfold consistent
  infer_instance

/-- The revealed form of a space: type set to `EMPTY`, flag cleared, count
kept — exactly what `RevealEmpty` writes into a hidden piece. -/
def flipSp (v : Space) : Space := { v with type := Piece.EMPTY, flag := false }

/-- How a flood fill may change the grid: each cell is either untouched or
was an in-bounds hidden cell and is now revealed (flag cleared). -/
def Evolves (W H : ℕ) (s t : BoardState) : Prop :=
  ∀ q, t.spaces q = s.spaces q ∨
    ((s.spaces q).type = Piece.HIDDEN ∧ inB W H q ∧ t.spaces q = flipSp (s.spaces q))

lemma evolves_refl (W H : ℕ) (s : BoardState) : Evolves W H s s :=
  fun _ => Or.inl rfl

lemma evolves_trans (W H : ℕ) {s t u : BoardState}
    (h1 : Evolves W H s t) (h2 : Evolves W H t u) : Evolves W H s u := by
  intro q
  rcases h2 q with h | ⟨hh, hb, he⟩
  · rw [h]; exact h1 q
  · rcases h1 q with h | ⟨hh1, hb1, he1⟩
    · rw [h] at hh he; exact Or.inr ⟨hh, hb, he⟩
    · rw [he1] at hh; simp [flipSp] at hh
lemma evolves_spaces_eq (W H : ℕ) {s t : BoardState} (h : t.spaces = s.spaces) :
    Evolves W H s t := fun q => Or.inl (by rw [h])

lemma updSpace_spaces (s : BoardState) (p : ℤ × ℤ) (v : Space) (q : ℤ × ℤ) :
    (updSpace s p v).spaces q = if q = p then v else s.spaces q := rfl

lemma updSpace_piecesLeft (s : BoardState) (p : ℤ × ℤ) (v : Space) :
    (updSpace s p v).piecesLeft = s.piecesLeft := rfl

lemma revealList_nil (W H fuel : ℕ) (s : BoardState) :
    revealList W H fuel s [] = s := rfl

lemma revealList_cons (W H fuel : ℕ) (s : BoardState) (q : ℤ × ℤ) (rest : List (ℤ × ℤ)) :
    revealList W H fuel s (q :: rest) =
      revealList W H fuel (revealEmpty W H fuel s q) rest := rfl

lemma revealEmpty_zero (W H : ℕ) (s : BoardState) (p : ℤ × ℤ) :
    revealEmpty W H 0 s p = s := rfl

lemma revealEmpty_succ (W H fuel : ℕ) (s : BoardState) (p : ℤ × ℤ) :
    revealEmpty W H (fuel + 1) s p =
      if inB W H p then
        if (s.spaces p).type = Piece.HIDDEN then
          { (if (s.spaces p).count > 0 then
              updSpace s p (flipSp (s.spaces p))
            else
              revealList W H fuel (updSpace s p (flipSp (s.spaces p))) (nbrs p)) with
            piecesLeft :=
              (if (s.spaces p).count > 0 then
                updSpace s p (flipSp (s.spaces p))
              else
                revealList W H fuel (updSpace s p (flipSp (s.spaces p))) (nbrs p)).piecesLeft - 1 }
        else s
      else s := by
  rw [revealEmpty]; rfl

lemma evolves_flip (W H : ℕ) (s : BoardState) (p : ℤ × ℤ)
    (hb : inB W H p) (hh : (s.spaces p).type = Piece.HIDDEN) :
    Evolves W H s (updSpace s p (flipSp (s.spaces p))) := by
  intro q
  by_cases hq : q = p
  · subst hq; exact Or.inr ⟨hh, hb, by simp [updSpace_spaces]⟩
  · exact Or.inl (by simp [updSpace_spaces, hq])

lemma evolves_revealList_of_one (W H fuel : ℕ)
    (ih : ∀ s p, Evolves W H s (revealEmpty W H fuel s p)) :
    ∀ (l : List (ℤ × ℤ)) (s : BoardState), Evolves W H s (revealList W H fuel s l) := by
  intro l
  induction l with
  | nil => intro s; rw [revealList_nil]; exact evolves_refl W H s
  | cons q rest ih2 =>
      intro s
      rw [revealList_cons]
      exact evolves_trans W H (ih s q) (ih2 _)

/-- Monotonicity of the flood fill: `RevealEmpty` only ever flips in-bounds
hidden cells to revealed (clearing their flags), leaving every other cell
untouched. -/
lemma evolves_revealEmpty (W H : ℕ) :
    ∀ (fuel : ℕ) (s : BoardState) (p : ℤ × ℤ), Evolves W H s (revealEmpty W H fuel s p) := by
  intro fuel
  induction fuel with
  | zero => intro s p; rw [revealEmpty_zero]; exact evolves_refl W H s
  | succ fuel ih =>
      intro s p
      rw [revealEmpty_succ]
      by_cases hb : inB W H p
      · by_cases hh : (s.spaces p).type = Piece.HIDDEN
        · simp only [hb, hh, if_pos, if_true]
          by_cases hc : (s.spaces p).count > 0
          · simp only [hc, if_pos]
            exact evolves_trans W H (evolves_flip W H s p hb hh)
              (evolves_spaces_eq W H rfl)
          · simp only [hc, if_neg, if_false]
            refine evolves_trans W H ?_ (evolves_spaces_eq W H rfl)
            exact evolves_trans W H (evolves_flip W H s p hb hh)
              (evolves_revealList_of_one W H fuel ih (nbrs p) _)
        · simp only [hb, hh, if_true, if_false]; exact evolves_refl W H s
      · simp only [hb, if_false]; exact evolves_refl W H s

lemma evolves_revealList (W H fuel : ℕ) (s : BoardState) (l : List (ℤ × ℤ)) :
    Evolves W H s (revealList W H fuel s l) :=
  evolves_revealList_of_one W H fuel (evolves_revealEmpty W H fuel) l s

lemma Evolves.count_eq {W H : ℕ} {s t : BoardState} (h : Evolves W H s t) (q : ℤ × ℤ) :
    (t.spaces q).count = (s.spaces q).count := by
  rcases h q with h | ⟨_, _, he⟩
  · rw [h]
  · rw [he]; rfl

lemma Evolves.flag_eq_of_not_hidden {W H : ℕ} {s t : BoardState} (h : Evolves W H s t)
    (q : ℤ × ℤ) (hq : (s.spaces q).type ≠ Piece.HIDDEN) : t.spaces q = s.spaces q := by
  rcases h q with h | ⟨hh, _, _⟩
  · exact h
  · exact absurd hh hq

lemma Evolves.mine_iff {W H : ℕ} {s t : BoardState} (h : Evolves W H s t) (q : ℤ × ℤ) :
    (t.spaces q).type = Piece.MINE ↔ (s.spaces q).type = Piece.MINE := by
  rcases h q with h | ⟨hh, _, he⟩
  · rw [h]
  · rw [he]; simp [flipSp, hh]

lemma Evolves.empty_mono {W H : ℕ} {s t : BoardState} (h : Evolves W H s t)
    (q : ℤ × ℤ) (hq : (s.spaces q).type = Piece.EMPTY) :
    (t.spaces q).type = Piece.EMPTY := by
  have := h.flag_eq_of_not_hidden q (by rw [hq]; intro hc; cases hc)
  rw [this, hq]

lemma Evolves.not_hidden_mono {W H : ℕ} {s t : BoardState} (h : Evolves W H s t)
    (q : ℤ × ℤ) (hq : (s.spaces q).type ≠ Piece.HIDDEN) :
    (t.spaces q).type ≠ Piece.HIDDEN := by
  rw [h.flag_eq_of_not_hidden q hq]; exact hq

lemma Evolves.oob_eq {W H : ℕ} {s t : BoardState} (h : Evolves W H s t)
    (q : ℤ × ℤ) (hq : ¬ inB W H q) : t.spaces q = s.spaces q := by
  rcases h q with h | ⟨_, hb, _⟩
  · exact h
  · exact absurd hb hq

/-- The clicked cell (if in bounds and hidden) is revealed whenever any
fuel is available. -/
lemma revealEmpty_target (W H fuel : ℕ) (s : BoardState) (p : ℤ × ℤ)
    (hf : 1 ≤ fuel) (hb : inB W H p) (hh : (s.spaces p).type = Piece.HIDDEN) :
    ((revealEmpty W H fuel s p).spaces p).type = Piece.EMPTY := by
  obtain ⟨f, rfl⟩ : ∃ f, fuel = f + 1 := ⟨fuel - 1, by omega⟩
  rw [revealEmpty_succ]
  simp only [hb, hh, if_true]
  have h1 : ((updSpace s p (flipSp (s.spaces p))).spaces p).type = Piece.EMPTY := by
    simp [updSpace_spaces, flipSp]
  by_cases hc : (s.spaces p).count > 0
  · simpa [hc] using h1
  · simp only [hc, if_neg, if_false]
    exact (evolves_revealList W H f (updSpace s p (flipSp (s.spaces p))) (nbrs p)).empty_mono p h1

/-- After running the fill over a list of coordinates, every in-bounds
coordinate of the list is no longer hidden. -/
lemma revealList_clears (W H fuel : ℕ) (hf : 1 ≤ fuel) :
    ∀ (l : List (ℤ × ℤ)) (s : BoardState) (q : ℤ × ℤ), q ∈ l → inB W H q →
      ((revealList W H fuel s l).spaces q).type ≠ Piece.HIDDEN := by
  intro l
  induction l with
  | nil => intro s q hq _; simp at hq
  | cons a rest ih =>
      intro s q hq hb
      rw [revealList_cons]
      rcases List.mem_cons.mp hq with rfl | hq
      · have h1 : ((revealEmpty W H fuel s q).spaces q).type ≠ Piece.HIDDEN := by
          by_cases hh : (s.spaces q).type = Piece.HIDDEN
          · rw [revealEmpty_target W H fuel s q hf hb hh]; intro hc; cases hc
          · exact (evolves_revealEmpty W H fuel s q).not_hidden_mono q hh
        exact (evolves_revealList W H fuel _ rest).not_hidden_mono q h1
      · exact ih _ q hq hb

/-- Reachability along the flood fill, relative to a fixed starting state:
the start cell must be in bounds and hidden, and each step moves from a
zero-count cell of the chain to an in-bounds hidden Moore neighbour. -/
inductive Reaches (W H : ℕ) (s : BoardState) (a : ℤ × ℤ) : ℤ × ℤ → Prop where
  | refl (hb : inB W H a) (hh : (s.spaces a).type = Piece.HIDDEN) : Reaches W H s a a
  | step {c b : ℤ × ℤ} (h : Reaches W H s a c) (hc : (s.spaces c).count = 0)
      (hbn : b ∈ nbrs c) (hb : inB W H b) (hh : (s.spaces b).type = Piece.HIDDEN) :
      Reaches W H s a b

lemma Reaches.target {W H : ℕ} {s : BoardState} {a b : ℤ × ℤ}
    (h : Reaches W H s a b) : inB W H b ∧ (s.spaces b).type = Piece.HIDDEN := by
  induction h with
  | refl hb hh => exact ⟨hb, hh⟩
  | step _ _ _ hb hh _ => exact ⟨hb, hh⟩

lemma Reaches.start {W H : ℕ} {s : BoardState} {a b : ℤ × ℤ}
    (h : Reaches W H s a b) : inB W H a ∧ (s.spaces a).type = Piece.HIDDEN := by
  induction h with
  | refl hb hh => exact ⟨hb, hh⟩
  | step _ _ _ _ _ ih => exact ih

/-- Reachability transports backwards along state changes that leave every
still-hidden cell untouched. -/
lemma Reaches.transport {W H : ℕ} {s s' : BoardState} {a b : ℤ × ℤ}
    (hs : ∀ q, (s'.spaces q).type = Piece.HIDDEN → s'.spaces q = s.spaces q)
    (h : Reaches W H s' a b) : Reaches W H s a b := by
  induction h with
  | refl hb hh => exact Reaches.refl hb (by rw [← hs a hh]; exact hh)
  | step h hc hbn hb hh ih =>
      have hct := (Reaches.target h).2
      exact Reaches.step ih (by rw [← hs _ hct]; exact hc) hbn hb
        (by rw [← hs _ hh]; exact hh)

lemma Evolves.hidden_frame {W H : ℕ} {s t : BoardState} (h : Evolves W H s t) :
    ∀ q, (t.spaces q).type = Piece.HIDDEN → t.spaces q = s.spaces q := by
  intro q hq
  rcases h q with h | ⟨_, _, he⟩
  · exact h
  · rw [he] at hq; cases hq

lemma Reaches.graft {W H : ℕ} {s : BoardState} {a b c : ℤ × ℤ}
    (h1 : Reaches W H s a b) (h2 : Reaches W H s b c) : Reaches W H s a c := by
  induction h2 with
  | refl _ _ => exact h1
  | step _ hc hbn hb hh ih => exact Reaches.step ih hc hbn hb hh

lemma sound_list_of_one (W H fuel : ℕ)
    (hone : ∀ (s : BoardState) (p q : ℤ × ℤ),
      (revealEmpty W H fuel s p).spaces q ≠ s.spaces q → Reaches W H s p q) :
    ∀ (l : List (ℤ × ℤ)) (s : BoardState) (q : ℤ × ℤ),
      (revealList W H fuel s l).spaces q ≠ s.spaces q → ∃ r ∈ l, Reaches W H s r q := by
  intro l
  induction l with
  | nil => intro s q hq; rw [revealList_nil] at hq; exact absurd rfl hq
  | cons a rest ih =>
      intro s q hq
      rw [revealList_cons] at hq
      by_cases h1 : (revealEmpty W H fuel s a).spaces q = s.spaces q
      · have h2 : (revealList W H fuel (revealEmpty W H fuel s a) rest).spaces q ≠
            (revealEmpty W H fuel s a).spaces q := by rw [h1]; exact hq
        obtain ⟨r, hr, hre⟩ := ih (revealEmpty W H fuel s a) q h2
        exact ⟨r, List.mem_cons_of_mem a hr,
          hre.transport (evolves_revealEmpty W H fuel s a).hidden_frame⟩
      · exact ⟨a, List.mem_cons_self a rest, hone s a q h1⟩

/-- Soundness of the flood fill: any cell whose space changed is reachable
from the clicked cell. -/
lemma sound_revealEmpty (W H : ℕ) :
    ∀ (fuel : ℕ) (s : BoardState) (p q : ℤ × ℤ),
      (revealEmpty W H fuel s p).spaces q ≠ s.spaces q → Reaches W H s p q := by
  intro fuel
  induction fuel with
  | zero => intro s p q hq; rw [revealEmpty_zero] at hq; exact absurd rfl hq
  | succ fuel ih =>
      intro s p q hq
      rw [revealEmpty_succ] at hq
      by_cases hb : inB W H p
      · by_cases hh : (s.spaces p).type = Piece.HIDDEN
        · simp only [hb, hh, if_true] at hq
          by_cases hpq : q = p
          · subst hpq; exact Reaches.refl hb hh
          · have hs1 : (updSpace s p (flipSp (s.spaces p))).spaces q = s.spaces q := by
              simp [updSpace_spaces, hpq]
            by_cases hc : (s.spaces p).count > 0
            · simp only [hc, if_pos] at hq
              exact absurd hs1 hq
            · simp only [hc, if_neg, if_false] at hq
              have hq2 : (revealList W H fuel (updSpace s p (flipSp (s.spaces p)))
                  (nbrs p)).spaces q ≠ (updSpace s p (flipSp (s.spaces p))).spaces q := by
                rw [hs1]; exact hq
              obtain ⟨r, hr, hre⟩ := sound_list_of_one W H fuel ih (nbrs p) _ q hq2
              have hre2 : Reaches W H s r q :=
                hre.transport (evolves_flip W H s p hb hh).hidden_frame
              have hstart := hre2.start
              have hcz : (s.spaces p).count = 0 := by omega
              exact Reaches.graft
                (Reaches.step (Reaches.refl hb hh) hcz hr hstart.1 hstart.2) hre2
        · simp only [hb, hh, if_true, if_false] at hq
          exact absurd rfl hq
      · simp only [hb, if_false] at hq
        exact absurd rfl hq

lemma mem_gridPts {W H : ℕ} {p : ℤ × ℤ} : p ∈ gridPts W H ↔ inB W H p := by
  constructor
  · intro hp
    obtain ⟨⟨i, j⟩, hij, rfl⟩ := Finset.mem_image.mp hp
    rw [Finset.mem_product] at hij
    simp only [Finset.mem_range] at hij
    refine ⟨by positivity, ?_, by positivity, ?_⟩ <;> simp <;> omega
  · rintro ⟨h1, h2, h3, h4⟩
    refine Finset.mem_image.mpr ⟨(p.1.toNat, p.2.toNat), ?_, ?_⟩
    · rw [Finset.mem_product]
      simp only [Finset.mem_range]
      omega
    · simp only
      rw [Int.toNat_of_nonneg h1, Int.toNat_of_nonneg h3]

lemma card_gridPts_le (W H : ℕ) : (gridPts W H).card ≤ W * H := by
  calc (gridPts W H).card ≤ (Finset.range W ×ˢ Finset.range H).card :=
        Finset.card_image_le
    _ = W * H := by rw [Finset.card_product, Finset.card_range, Finset.card_range]

lemma filter_card_add_one {α : Type} [DecidableEq α] (A : Finset α)
    (P Q : α → Prop) [DecidablePred P] [DecidablePred Q] (a : α) (ha : a ∈ A)
    (hQ : Q a) (hP : ¬ P a) (hagree : ∀ b ∈ A, b ≠ a → (P b ↔ Q b)) :
    (A.filter Q).card = (A.filter P).card + 1 := by
  have hset : A.filter Q = insert a (A.filter P) := by
    ext b
    simp only [Finset.mem_filter, Finset.mem_insert]
    constructor
    · rintro ⟨hbA, hbQ⟩
      by_cases hba : b = a
      · exact Or.inl hba
      · exact Or.inr ⟨hbA, (hagree b hbA hba).mpr hbQ⟩
    · rintro (rfl | ⟨hbA, hbP⟩)
      · exact ⟨ha, hQ⟩
      · refine ⟨hbA, ?_⟩
        by_cases hba : b = a
        · subst hba; exact absurd hbP hP
        · exact (hagree b hbA hba).mp hbP
  rw [hset, Finset.card_insert_of_not_mem (by simp [Finset.mem_filter, hP])]

lemma countIn_updSpace_add_one (W H : ℕ) (s : BoardState) (p : ℤ × ℤ) (v : Space)
    (t : Piece) (hb : inB W H p) (hnew : v.type = t) (hold : (s.spaces p).type ≠ t) :
    countIn W H (updSpace s p v) t = countIn W H s t + 1 := by
  unfold countIn
  exact filter_card_add_one (gridPts W H) _ _ p (mem_gridPts.mpr hb)
    (by simp [updSpace_spaces, hnew]) (by simpa using hold)
    (by intro b _ hba; simp [updSpace_spaces, hba])

lemma countIn_updSpace_sub_one (W H : ℕ) (s : BoardState) (p : ℤ × ℤ) (v : Space)
    (t : Piece) (hb : inB W H p) (hnew : v.type ≠ t) (hold : (s.spaces p).type = t) :
    countIn W H s t = countIn W H (updSpace s p v) t + 1 := by
  unfold countIn
  exact filter_card_add_one (gridPts W H) _ _ p (mem_gridPts.mpr hb)
    (by simpa using hold) (by simp [updSpace_spaces, hnew])
    (by intro b _ hba; simp [updSpace_spaces, hba])

lemma countIn_updSpace_eq (W H : ℕ) (s : BoardState) (p : ℤ × ℤ) (v : Space)
    (t : Piece) (h : v.type = t ↔ (s.spaces p).type = t) :
    countIn W H (updSpace s p v) t = countIn W H s t := by
  unfold countIn
  congr 1
  apply Finset.filter_congr
  intro b _
  by_cases hba : b = p
  · subst hba; simp [updSpace_spaces, h]
  · simp [updSpace_spaces, hba]

lemma countIn_le_of_evolves {W H : ℕ} {s t : BoardState} (h : Evolves W H s t) :
    countIn W H t Piece.HIDDEN ≤ countIn W H s Piece.HIDDEN := by
  unfold countIn
  apply Finset.card_le_card
  intro q hq
  rw [Finset.mem_filter] at hq ⊢
  refine ⟨hq.1, ?_⟩
  by_contra hs
  exact (h.not_hidden_mono q hs) hq.2

/-- The two conserved quantities of the flood fill: `pieces_left` plus the
number of revealed cells, and hidden-plus-revealed cells. -/
def invPE (W H : ℕ) (s : BoardState) : ℤ :=
  s.piecesLeft + countIn W H s Piece.EMPTY

def invHE (W H : ℕ) (s : BoardState) : ℕ :=
  countIn W H s Piece.HIDDEN + countIn W H s Piece.EMPTY

lemma conserve_list_of_one (W H fuel : ℕ)
    (hone : ∀ (s : BoardState) (p : ℤ × ℤ),
      invPE W H (revealEmpty W H fuel s p) = invPE W H s ∧
      invHE W H (revealEmpty W H fuel s p) = invHE W H s) :
    ∀ (l : List (ℤ × ℤ)) (s : BoardState),
      invPE W H (revealList W H fuel s l) = invPE W H s ∧
      invHE W H (revealList W H fuel s l) = invHE W H s := by
  intro l
  induction l with
  | nil => intro s; rw [revealList_nil]; exact ⟨rfl, rfl⟩
  | cons a rest ih =>
      intro s
      rw [revealList_cons]
      obtain ⟨h1, h2⟩ := ih (revealEmpty W H fuel s a)
      obtain ⟨h3, h4⟩ := hone s a
      exact ⟨by rw [h1, h3], by rw [h2, h4]⟩

/-- `pieces_left` is decremented exactly once per newly revealed cell, and
hidden cells turn into revealed ones one for one. -/
lemma conserve_revealEmpty (W H : ℕ) :
    ∀ (fuel : ℕ) (s : BoardState) (p : ℤ × ℤ),
      invPE W H (revealEmpty W H fuel s p) = invPE W H s ∧
      invHE W H (revealEmpty W H fuel s p) = invHE W H s := by
  intro fuel
  induction fuel with
  | zero => intro s p; rw [revealEmpty_zero]; exact ⟨rfl, rfl⟩
  | succ fuel ih =>
      intro s p
      rw [revealEmpty_succ]
      by_cases hb : inB W H p
      · by_cases hh : (s.spaces p).type = Piece.HIDDEN
        · simp only [hb, hh, if_true]
          set s1 := updSpace s p (flipSp (s.spaces p)) with hs1
          have hE : countIn W H s1 Piece.EMPTY = countIn W H s Piece.EMPTY + 1 :=
            countIn_updSpace_add_one W H s p _ _ hb rfl (by rw [hh]; intro hc; cases hc)
          have hHd : countIn W H s Piece.HIDDEN = countIn W H s1 Piece.HIDDEN + 1 :=
            countIn_updSpace_sub_one W H s p _ _ hb (by intro hc; cases hc) hh
          have hP : s1.piecesLeft = s.piecesLeft := updSpace_piecesLeft s p _
          have hstep1 : invPE W H s1 = invPE W H s + 1 := by
            unfold invPE; rw [hE, hP]; push_cast; ring
          have hstep2 : invHE W H s1 = invHE W H s := by
            unfold invHE; omega
          by_cases hc : (s.spaces p).count > 0
          · simp only [hc, if_pos]
            constructor
            · show (s1.piecesLeft - 1) + (countIn W H s1 Piece.EMPTY : ℤ) = invPE W H s
              have := hstep1
              unfold invPE at this ⊢
              omega
            · show countIn W H s1 Piece.HIDDEN + countIn W H s1 Piece.EMPTY = invHE W H s
              exact hstep2
          · simp only [hc, if_neg, if_false]
            obtain ⟨h1, h2⟩ := conserve_list_of_one W H fuel ih (nbrs p) s1
            refine ⟨?_, ?_⟩
            · show (revealList W H fuel s1 (nbrs p)).piecesLeft - 1 +
                (countIn W H (revealList W H fuel s1 (nbrs p)) Piece.EMPTY : ℤ) = invPE W H s
              unfold invPE at h1 hstep1 ⊢
              omega
            · show countIn W H (revealList W H fuel s1 (nbrs p)) Piece.HIDDEN +
                countIn W H (revealList W H fuel s1 (nbrs p)) Piece.EMPTY = invHE W H s
              unfold invHE at h2 hstep2 ⊢
              omega
        · simp only [hb, hh, if_true, if_false]; trivial
      · simp only [hb, if_false]; trivial

lemma conserve_revealList (W H fuel : ℕ) (s : BoardState) (l : List (ℤ × ℤ)) :
    invPE W H (revealList W H fuel s l) = invPE W H s ∧
    invHE W H (revealList W H fuel s l) = invHE W H s :=
  conserve_list_of_one W H fuel (conserve_revealEmpty W H fuel) l s

/-- Closure of a board: every revealed zero-count cell already has all its
in-bounds neighbours non-hidden.  This holds for every board reachable by
engine operations (freshly generated boards have no revealed cells at
all) and is the invariant that makes the flood fill exhaustive. -/
def closedBoard (W H : ℕ) (s : BoardState) : Prop :=
  ∀ p ∈ gridPts W H, (s.spaces p).type = Piece.EMPTY → (s.spaces p).count = 0 →
    ∀ q ∈ nbrs p, inB W H q → (s.spaces q).type ≠ Piece.HIDDEN

instance closedBoard.instDecidable (W H : ℕ) (s : BoardState) :
    Decidable (closedBoard W H s) := by
  unfold closedBoard
  infer_instance

/-- Closure up to an excused set `X` of coordinates still being processed. -/
def ClosedExcept (W H : ℕ) (s : BoardState) (X : ℤ × ℤ → Prop) : Prop :=
  ∀ p, inB W H p → (s.spaces p).type = Piece.EMPTY → (s.spaces p).count = 0 → ¬ X p →
    ∀ q ∈ nbrs p, inB W H q → (s.spaces q).type ≠ Piece.HIDDEN

lemma closedBoard_iff (W H : ℕ) (s : BoardState) :
    closedBoard W H s ↔ ClosedExcept W H s (fun _ => False) := by
  constructor
  · intro h p hin hemp hcnt _ q hq hqin
    exact h p (mem_gridPts.mpr hin) hemp hcnt q hq hqin
  · intro h p hin hemp hcnt q hq hqin
    exact h p (mem_gridPts.mp hin) hemp hcnt not_false q hq hqin

lemma closed_list_of_one (W H fuel : ℕ)
    (hone : ∀ (s : BoardState) (p : ℤ × ℤ) (X : ℤ × ℤ → Prop),
      countIn W H s Piece.HIDDEN + 1 ≤ fuel → ClosedExcept W H s X →
      ClosedExcept W H (revealEmpty W H fuel s p) X) :
    ∀ (l : List (ℤ × ℤ)) (s : BoardState) (X : ℤ × ℤ → Prop),
      countIn W H s Piece.HIDDEN + 1 ≤ fuel → ClosedExcept W H s X →
      ClosedExcept W H (revealList W H fuel s l) X := by
  intro l
  induction l with
  | nil => intro s X _ hX; rw [revealList_nil]; exact hX
  | cons a rest ih =>
      intro s X hf hX
      rw [revealList_cons]
      have hmono : countIn W H (revealEmpty W H fuel s a) Piece.HIDDEN + 1 ≤ fuel :=
        le_trans (by
          have := countIn_le_of_evolves (evolves_revealEmpty W H fuel s a)
          omega) hf
      exact ih _ X hmono (hone s a X hf hX)

/-- Closure preservation: the flood fill leaves behind no revealed
zero-count cell with a hidden neighbour, given enough fuel. -/
lemma closed_revealEmpty (W H : ℕ) :
    ∀ (fuel : ℕ) (s : BoardState) (p : ℤ × ℤ) (X : ℤ × ℤ → Prop),
      countIn W H s Piece.HIDDEN + 1 ≤ fuel → ClosedExcept W H s X →
      ClosedExcept W H (revealEmpty W H fuel s p) X := by
  intro fuel
  induction fuel with
  | zero => intro s p X hf _; omega
  | succ fuel ih =>
      intro s p X hf hX
      rw [revealEmpty_succ]
      by_cases hb : inB W H p
      · by_cases hh : (s.spaces p).type = Piece.HIDDEN
        · simp only [hb, hh, if_true]
          have hHd : countIn W H s Piece.HIDDEN =
              countIn W H (updSpace s p (flipSp (s.spaces p))) Piece.HIDDEN + 1 :=
            countIn_updSpace_sub_one W H s p _ _ hb (by intro hc; cases hc) hh
          by_cases hc : (s.spaces p).count > 0
          · simp only [hc, if_pos]
            intro p' hin hemp hcnt hx q hq hqin
            show ((updSpace s p (flipSp (s.spaces p))).spaces q).type ≠ Piece.HIDDEN
            by_cases hp' : p' = p
            · subst hp'
              have : ((updSpace s p' (flipSp (s.spaces p'))).spaces p').count =
                  (s.spaces p').count := by simp [updSpace_spaces, flipSp]
              rw [this] at hcnt
              omega
            · have hsp' : (updSpace s p (flipSp (s.spaces p))).spaces p' = s.spaces p' := by
                simp [updSpace_spaces, hp']
              rw [hsp'] at hemp hcnt
              have hq' := hX p' hin hemp hcnt hx q hq hqin
              by_cases hqp : q = p
              · subst hqp; simp [updSpace_spaces, flipSp]
              · simp only [updSpace_spaces, hqp, if_neg, if_false]
                exact hq'
          · simp only [hc, if_neg, if_false]
            have hX1 : ClosedExcept W H (updSpace s p (flipSp (s.spaces p)))
                (fun r => X r ∨ r = p) := by
              intro p' hin hemp hcnt hx q hq hqin
              have hp' : p' ≠ p := fun hpe => hx (Or.inr hpe)
              have hsp' : (updSpace s p (flipSp (s.spaces p))).spaces p' = s.spaces p' := by
                simp [updSpace_spaces, hp']
              rw [hsp'] at hemp hcnt
              have hq' := hX p' hin hemp hcnt (fun hc2 => hx (Or.inl hc2)) q hq hqin
              by_cases hqp : q = p
              · subst hqp; simp [updSpace_spaces, flipSp]
              · simp only [updSpace_spaces, hqp, if_neg, if_false]
                exact hq'
            have hf1 : countIn W H (updSpace s p (flipSp (s.spaces p))) Piece.HIDDEN + 1 ≤
                fuel := by omega
            have hfull := closed_list_of_one W H fuel ih (nbrs p) _ _ hf1 hX1
            have hclear := revealList_clears W H fuel (by omega) (nbrs p)
              (updSpace s p (flipSp (s.spaces p)))
            intro p' hin hemp hcnt hx q hq hqin
            show ((revealList W H fuel (updSpace s p (flipSp (s.spaces p)))
              (nbrs p)).spaces q).type ≠ Piece.HIDDEN
            by_cases hp' : p' = p
            · subst hp'
              exact hclear q hq hqin
            · exact hfull p' hin hemp hcnt (by
                rintro (hxx | hpe)
                · exact hx hxx
                · exact hp' hpe) q hq hqin
        · simp only [hb, hh, if_true, if_false]; exact hX
      · simp only [hb, if_false]; exact hX

/-- Completeness of the flood fill: every cell reachable from the clicked
cell ends up revealed, provided the starting board is closed. -/
lemma complete_revealEmpty (W H fuel : ℕ) (s : BoardState) (p0 : ℤ × ℤ)
    (hf : countIn W H s Piece.HIDDEN + 1 ≤ fuel)
    (hcl : ClosedExcept W H s (fun _ => False))
    (q : ℤ × ℤ) (hq : Reaches W H s p0 q) :
    ((revealEmpty W H fuel s p0).spaces q).type = Piece.EMPTY := by
  have hb := hq.start.1
  have hh := hq.start.2
  have hT : ((revealEmpty W H fuel s p0).spaces p0).type = Piece.EMPTY :=
    revealEmpty_target W H fuel s p0 (by omega) hb hh
  have hCE : ClosedExcept W H (revealEmpty W H fuel s p0) (fun _ => False) :=
    closed_revealEmpty W H fuel s p0 _ hf hcl
  have hEv := evolves_revealEmpty W H fuel s p0
  induction hq with
  | refl _ _ => exact hT
  | step h hc hbn hbq hhq ih =>
      rename_i c b
      have htc := ih
      have hcin := h.target.1
      have hcount : ((revealEmpty W H fuel s p0).spaces c).count = (s.spaces c).count :=
        hEv.count_eq c
      have hnb := hCE c hcin htc (by rw [hcount]; exact hc) not_false b hbn hbq
      rcases hEv b with heq | ⟨_, _, hfl⟩
      · rw [heq] at hnb; exact absurd hhq hnb
      · rw [hfl]; rfl

/-- The region the specification talks about, defined purely from the
stored counts: the connected zero-count region containing the clicked
cell together with its bordering cells, clipped at board edges.  A cell
is in the region if a chain of in-bounds zero-count cells leads from the
clicked cell to it (the final cell may have any count: those with
positive count are exactly the claimed border). -/
inductive CReach (W H : ℕ) (s : BoardState) (a : ℤ × ℤ) : ℤ × ℤ → Prop where
  | refl (hb : inB W H a) : CReach W H s a a
  | step {c b : ℤ × ℤ} (h : CReach W H s a c) (hc : (s.spaces c).count = 0)
      (hbn : b ∈ nbrs c) (hb : inB W H b) : CReach W H s a b

lemma CReach.target_inB {W H : ℕ} {s : BoardState} {a b : ℤ × ℤ}
    (h : CReach W H s a b) : inB W H b := by
  induction h with
  | refl hb => exact hb
  | step _ _ _ hb _ => exact hb

lemma Reaches.creach {W H : ℕ} {s : BoardState} {a b : ℤ × ℤ}
    (h : Reaches W H s a b) : CReach W H s a b := by
  induction h with
  | refl hb _ => exact CReach.refl hb
  | step _ hc hbn hb _ ih => exact CReach.step ih hc hbn hb

/-- On a count-consistent board, no cell of the region (or of its border)
is a mine: every region cell is adjacent to (or is) a zero-count cell,
and a zero-count cell has no mine neighbours. -/
lemma CReach.not_mine {W H : ℕ} {s : BoardState} {a b : ℤ × ℤ}
    (hcons : consistent W H s) (hh : (s.spaces a).type = Piece.HIDDEN)
    (h : CReach W H s a b) : (s.spaces b).type ≠ Piece.MINE := by
  induction h with
  | refl _ => rw [hh]; intro hc; cases hc
  | step h hc hbn hb ihm =>
      rename_i c b
      have hcin := h.target_inB
      have hadj : adjMines W H s c = 0 := by
        rw [← hcons c (mem_gridPts.mpr hcin)]; exact hc
      unfold adjMines at hadj
      rw [List.length_eq_zero] at hadj
      have := List.filter_eq_nil_iff.mp hadj b hbn
      simp only [Bool.and_eq_true, decide_eq_true_eq] at this
      intro hmine
      exact this ⟨hb, hmine⟩

/-- On a closed consistent board, every region cell is either reachable by
the fill (all chain cells still hidden) or already revealed. -/
lemma CReach.reaches_or_empty {W H : ℕ} {s : BoardState} {a b : ℤ × ℤ}
    (hcons : consistent W H s) (hcl : ClosedExcept W H s (fun _ => False))
    (hh : (s.spaces a).type = Piece.HIDDEN)
    (h : CReach W H s a b) :
    Reaches W H s a b ∨ (s.spaces b).type = Piece.EMPTY := by
  induction h with
  | refl hb => exact Or.inl (Reaches.refl hb hh)
  | step h hc hbn hb ih =>
      rename_i c b
      have hbnotmine : (s.spaces b).type ≠ Piece.MINE :=
        CReach.not_mine hcons hh (CReach.step h hc hbn hb)
      rcases ih with hr | hce
      · cases htb : (s.spaces b).type with
        | HIDDEN => exact Or.inl (Reaches.step hr hc hbn hb htb)
        | EMPTY => exact Or.inr rfl
        | MINE => exact absurd htb hbnotmine
      · have hnb := hcl c h.target_inB hce hc not_false b hbn hb
        cases htb : (s.spaces b).type with
        | HIDDEN => exact absurd htb hnb
        | EMPTY => exact Or.inr rfl
        | MINE => exact absurd htb hbnotmine

lemma countIn_le (W H : ℕ) (s : BoardState) (t : Piece) : countIn W H s t ≤ W * H :=
  le_trans (Finset.card_filter_le _ _) (card_gridPts_le W H)

/-- C1: on a consistent, closed board, revealing an in-range hidden
non-mine cell with `adjacent_mine_count = 0` reveals exactly the connected
zero-count region containing it plus the bordering cells (clipped at
board edges, border cells having positive count), on top of what was
already revealed; no mine cell is in that region or is ever transitioned
to revealed by the cascade. -/
theorem ms_c1 (W H : ℕ) (s : BoardState) (p0 : ℤ × ℤ)
    (hcons : consistent W H s) (hcl : closedBoard W H s)
    (hb : inB W H p0) (hh : (s.spaces p0).type = Piece.HIDDEN)
    (hz : (s.spaces p0).count = 0) :
    (∀ p, inB W H p →
      (((revealEmpty W H (boardFuel W H) s p0).spaces p).type = Piece.EMPTY ↔
        ((s.spaces p).type = Piece.EMPTY ∨ CReach W H s p0 p))) ∧
    (∀ p, CReach W H s p0 p → (s.spaces p).type ≠ Piece.MINE) ∧
    (∀ p, (s.spaces p).type = Piece.MINE →
      ((revealEmpty W H (boardFuel W H) s p0).spaces p).type = Piece.MINE) := by
  have hfuel : countIn W H s Piece.HIDDEN + 1 ≤ boardFuel W H := by
    have := countIn_le W H s Piece.HIDDEN
    unfold boardFuel
    omega
  have hclE := (closedBoard_iff W H s).mp hcl
  have hEv := evolves_revealEmpty W H (boardFuel W H) s p0
  refine ⟨?_, fun p => CReach.not_mine hcons hh, fun p hm => (hEv.mine_iff p).mpr hm⟩
  intro p hin
  constructor
  · intro hemp
    by_cases hse : (s.spaces p).type = Piece.EMPTY
    · exact Or.inl hse
    · have hne : (revealEmpty W H (boardFuel W H) s p0).spaces p ≠ s.spaces p := by
        intro hcontra
        rw [hcontra] at hemp
        exact hse hemp
      exact Or.inr (sound_revealEmpty W H (boardFuel W H) s p0 p hne).creach
  · rintro (hse | hcr)
    · exact hEv.empty_mono p hse
    · rcases hcr.reaches_or_empty hcons hclE hh with hr | hse
      · exact complete_revealEmpty W H (boardFuel W H) s p0 hfuel hclE p hr
      · exact hEv.empty_mono p hse

/-- A concrete 1×2 all-hidden zero-count mine-free board. -/
def wb1 : BoardState := { spaces := fun _ => ⟨Piece.HIDDEN, 0, false⟩, piecesLeft := 2 }

/-- Witness for `ms_c1`: on the 1×2 all-hidden mine-free board, revealing
cell (0,0) also reveals cell (0,1), which lies in the zero-count region. -/
theorem ms_c1_witness :
    consistent 1 2 wb1 ∧ closedBoard 1 2 wb1 ∧ inB 1 2 (0, 0) ∧
    (wb1.spaces (0, 0)).type = Piece.HIDDEN ∧ (wb1.spaces (0, 0)).count = 0 ∧
    ((revealEmpty 1 2 (boardFuel 1 2) wb1 (0, 0)).spaces (0, 1)).type = Piece.EMPTY :=
  ⟨by decide, by decide, by decide, by decide, by decide,
    ((ms_c1 1 2 wb1 (0, 0) (by decide) (by decide) (by decide) (by decide) (by decide)).1
      (0, 1) (by decide)).mpr
      (Or.inr (CReach.step (CReach.refl (by decide)) (by decide) (by decide) (by decide)))⟩

lemma clickSpace_flag (W H : ℕ) (s : BoardState) (p : ℤ × ℤ)
    (hf : (s.spaces p).flag = true) : clickSpace W H s p = (s, Outcome.quiet) := by
  unfold clickSpace
  simp [hf]

lemma clickSpace_mine (W H : ℕ) (s : BoardState) (p : ℤ × ℤ)
    (hf : (s.spaces p).flag = false) (hm : (s.spaces p).type = Piece.MINE) :
    clickSpace W H s p = (s, Outcome.lost) := by
  unfold clickSpace
  simp [hf, hm]

lemma clickSpace_empty (W H : ℕ) (s : BoardState) (p : ℤ × ℤ)
    (hf : (s.spaces p).flag = false) (he : (s.spaces p).type = Piece.EMPTY) :
    clickSpace W H s p = (s, Outcome.quiet) := by
  unfold clickSpace
  rw [he]
  simp [hf]

lemma clickSpace_hidden (W H : ℕ) (s : BoardState) (p : ℤ × ℤ)
    (hf : (s.spaces p).flag = false) (hh : (s.spaces p).type = Piece.HIDDEN) :
    clickSpace W H s p =
      (revealEmpty W H (boardFuel W H) s p,
        if (revealEmpty W H (boardFuel W H) s p).piecesLeft ≤ 0 then Outcome.won
        else Outcome.quiet) := by
  unfold clickSpace
  rw [hh]
  simp [hf]

lemma pieces_diff_self (W H : ℕ) (s : BoardState) :
    s.piecesLeft - s.piecesLeft =
      ((gridPts W H).filter fun q => (s.spaces q).type = Piece.EMPTY ∧
        (s.spaces q).type ≠ Piece.EMPTY).card := by
  have hempty : ((gridPts W H).filter fun q => (s.spaces q).type = Piece.EMPTY ∧
      (s.spaces q).type ≠ Piece.EMPTY) = ∅ := by
    apply Finset.filter_eq_empty_iff.mpr
    rintro q _ ⟨h1, h2⟩
    exact h2 h1
  rw [hempty]
  simp

/-- Newly revealed cells, counted: the revealed-cell count grows by exactly
the number of cells revealed in `t` but not in `s`. -/
lemma newly_revealed_card (W H : ℕ) {s t : BoardState} (h : Evolves W H s t) :
    countIn W H t Piece.EMPTY = countIn W H s Piece.EMPTY +
      ((gridPts W H).filter fun q => (t.spaces q).type = Piece.EMPTY ∧
        (s.spaces q).type ≠ Piece.EMPTY).card := by
  unfold countIn
  have hunion : ((gridPts W H).filter fun q => (t.spaces q).type = Piece.EMPTY) =
      ((gridPts W H).filter fun q => (s.spaces q).type = Piece.EMPTY) ∪
      ((gridPts W H).filter fun q => (t.spaces q).type = Piece.EMPTY ∧
        (s.spaces q).type ≠ Piece.EMPTY) := by
    ext q
    simp only [Finset.mem_filter, Finset.mem_union]
    constructor
    · rintro ⟨hq, hqt⟩
      by_cases hqs : (s.spaces q).type = Piece.EMPTY
      · exact Or.inl ⟨hq, hqs⟩
      · exact Or.inr ⟨hq, hqt, hqs⟩
    · rintro (⟨hq, hqs⟩ | ⟨hq, hqt, _⟩)
      · exact ⟨hq, h.empty_mono q hqs⟩
      · exact ⟨hq, hqt⟩
  have hdisj : Disjoint
      ((gridPts W H).filter fun q => (s.spaces q).type = Piece.EMPTY)
      ((gridPts W H).filter fun q => (t.spaces q).type = Piece.EMPTY ∧
        (s.spaces q).type ≠ Piece.EMPTY) := by
    rw [Finset.disjoint_left]
    intro q hq hq2
    rw [Finset.mem_filter] at hq hq2
    exact hq2.2.2 hq.2
  rw [hunion, Finset.card_union_of_disjoint hdisj]

/-- C8: a single `reveal` call (`ClickSpace`) decrements `pieces_left` by
exactly the number of cells it newly revealed (cascade included), and
leaves the state untouched — hence decrements nothing — on every no-op or
rejected call: flagged target, already-revealed target, mine target, and
(inside `RevealEmpty`) out-of-bounds coordinates. -/
theorem ms_c8 (W H : ℕ) (s : BoardState) (p : ℤ × ℤ) :
    (s.piecesLeft - ((clickSpace W H s p).1).piecesLeft =
      ((gridPts W H).filter fun q => (((clickSpace W H s p).1).spaces q).type = Piece.EMPTY ∧
        (s.spaces q).type ≠ Piece.EMPTY).card) ∧
    ((s.spaces p).flag = true → (clickSpace W H s p).1 = s) ∧
    ((s.spaces p).type = Piece.MINE → (clickSpace W H s p).1 = s) ∧
    ((s.spaces p).type = Piece.EMPTY → (clickSpace W H s p).1 = s) ∧
    (∀ (fuel : ℕ) (q : ℤ × ℤ), ¬ inB W H q → revealEmpty W H fuel s q = s) := by
  have hoob : ∀ (fuel : ℕ) (q : ℤ × ℤ), ¬ inB W H q → revealEmpty W H fuel s q = s := by
    intro fuel q hq
    cases fuel with
    | zero => rw [revealEmpty_zero]
    | succ fuel => rw [revealEmpty_succ]; simp [hq]
  have hmain : s.piecesLeft - ((clickSpace W H s p).1).piecesLeft =
      ((gridPts W H).filter fun q => (((clickSpace W H s p).1).spaces q).type = Piece.EMPTY ∧
        (s.spaces q).type ≠ Piece.EMPTY).card := by
    by_cases hf : (s.spaces p).flag
    · rw [clickSpace_flag W H s p hf]
      exact pieces_diff_self W H s
    · have hf' : (s.spaces p).flag = false := by simp at hf; exact hf
      cases ht : (s.spaces p).type with
      | HIDDEN =>
          rw [clickSpace_hidden W H s p hf' ht]
          have hc := (conserve_revealEmpty W H (boardFuel W H) s p).1
          unfold invPE at hc
          have hn := newly_revealed_card W H (evolves_revealEmpty W H (boardFuel W H) s p)
          simp only
          omega
      | EMPTY =>
          rw [clickSpace_empty W H s p hf' ht]
          exact pieces_diff_self W H s
      | MINE =>
          rw [clickSpace_mine W H s p hf' ht]
          exact pieces_diff_self W H s
  refine ⟨hmain, ?_, ?_, ?_, hoob⟩
  · intro hf; rw [clickSpace_flag W H s p hf]
  · intro hm
    by_cases hf : (s.spaces p).flag
    · rw [clickSpace_flag W H s p hf]
    · rw [clickSpace_mine W H s p (by simp at hf; exact hf) hm]
  · intro he
    by_cases hf : (s.spaces p).flag
    · rw [clickSpace_flag W H s p hf]
    · rw [clickSpace_empty W H s p (by simp at hf; exact hf) he]

/-- A 1×1 board with a flagged hidden cell, used to witness `ms_c8`. -/
def wb8 : BoardState := { spaces := fun _ => ⟨Piece.HIDDEN, 0, true⟩, piecesLeft := 1 }

/-- Witness for `ms_c8`: a click on a flagged cell changes nothing. -/
theorem ms_c8_witness :
    (wb8.spaces (0, 0)).flag = true ∧ (clickSpace 1 1 wb8 (0, 0)).1 = wb8 :=
  ⟨by decide, (ms_c8 1 1 wb8 (0, 0)).2.1 (by decide)⟩

/-- A 1×1 board whose only cell is a flagged mine. -/
def wb4 : BoardState := { spaces := fun _ => ⟨Piece.MINE, 0, true⟩, piecesLeft := 0 }

/-- Counterexample to C4 as stated: a reveal click that targets a mine
cell does NOT enter the Lost state when the mine is flagged (the flag
check precedes the mine check in `ClickSpace`), so "Lost is entered iff a
reveal targeted a cell with `is_mine = true`" fails in the only-if-Lost
direction. -/
theorem ms_c4_cex :
    (wb4.spaces (0, 0)).type = Piece.MINE ∧
    (clickSpace 1 1 wb4 (0, 0)).2 ≠ Outcome.lost := by decide

/-- C4 (amended): Lost is entered iff the reveal targeted an unflagged
mine cell; for a processed reveal (unflagged hidden target), Won is
entered iff afterwards every non-mine cell is revealed; and a click that
does not process a reveal never enters Won.  The hypothesis is the
`pieces_left` bookkeeping invariant, which generation establishes and
every operation preserves. -/
theorem ms_c4_amended (W H : ℕ) (s : BoardState) (p : ℤ × ℤ)
    (hinv : s.piecesLeft = (countIn W H s Piece.HIDDEN : ℤ)) :
    ((clickSpace W H s p).2 = Outcome.lost ↔
      ((s.spaces p).flag = false ∧ (s.spaces p).type = Piece.MINE)) ∧
    ((s.spaces p).flag = false → (s.spaces p).type = Piece.HIDDEN →
      ((clickSpace W H s p).2 = Outcome.won ↔
        (∀ q ∈ gridPts W H, (((clickSpace W H s p).1).spaces q).type ≠ Piece.MINE →
          (((clickSpace W H s p).1).spaces q).type = Piece.EMPTY))) ∧
    (((s.spaces p).flag = true ∨ (s.spaces p).type ≠ Piece.HIDDEN) →
      (clickSpace W H s p).2 ≠ Outcome.won) := by
  refine ⟨?_, ?_, ?_⟩
  · by_cases hf : (s.spaces p).flag
    · rw [clickSpace_flag W H s p hf]
      simp [hf]
    · have hf' : (s.spaces p).flag = false := by simp at hf; exact hf
      cases ht : (s.spaces p).type with
      | HIDDEN =>
          rw [clickSpace_hidden W H s p hf' ht]
          by_cases hw : (revealEmpty W H (boardFuel W H) s p).piecesLeft ≤ 0 <;>
            simp [hw]
      | EMPTY => rw [clickSpace_empty W H s p hf' ht]; simp
      | MINE => rw [clickSpace_mine W H s p hf' ht]; simp [hf']
  · intro hf hh
    rw [clickSpace_hidden W H s p hf hh]
    simp only
    have hc1 := (conserve_revealEmpty W H (boardFuel W H) s p).1
    have hc2 := (conserve_revealEmpty W H (boardFuel W H) s p).2
    unfold invPE at hc1
    unfold invHE at hc2
    constructor
    · intro hw
      have hle : (revealEmpty W H (boardFuel W H) s p).piecesLeft ≤ 0 := by
        by_contra hgt
        rw [if_neg hgt] at hw
        cases hw
      have hzero : countIn W H (revealEmpty W H (boardFuel W H) s p) Piece.HIDDEN = 0 := by
        omega
      intro q hq hnm
      have hnh : ((revealEmpty W H (boardFuel W H) s p).spaces q).type ≠ Piece.HIDDEN := by
        intro hhid
        have hmem : q ∈ (gridPts W H).filter
            (fun r => ((revealEmpty W H (boardFuel W H) s p).spaces r).type = Piece.HIDDEN) :=
          Finset.mem_filter.mpr ⟨hq, hhid⟩
        unfold countIn at hzero
        rw [Finset.card_eq_zero] at hzero
        rw [hzero] at hmem
        exact absurd hmem (Finset.not_mem_empty q)
      cases h2 : ((revealEmpty W H (boardFuel W H) s p).spaces q).type with
      | HIDDEN => exact absurd h2 hnh
      | EMPTY => rfl
      | MINE => exact absurd h2 hnm
    · intro hall
      have hzero : countIn W H (revealEmpty W H (boardFuel W H) s p) Piece.HIDDEN = 0 := by
        unfold countIn
        rw [Finset.card_eq_zero]
        apply Finset.filter_eq_empty_iff.mpr
        intro q hq hhid
        have hemp := hall q hq (by rw [hhid]; intro hc; cases hc)
        rw [hhid] at hemp
        cases hemp
      have hle : (revealEmpty W H (boardFuel W H) s p).piecesLeft ≤ 0 := by omega
      rw [if_pos hle]
  · rintro (hf | hnh)
    · rw [clickSpace_flag W H s p hf]; simp
    · by_cases hf : (s.spaces p).flag
      · rw [clickSpace_flag W H s p hf]; simp
      · have hf' : (s.spaces p).flag = false := by simp at hf; exact hf
        cases ht : (s.spaces p).type with
        | HIDDEN => exact absurd ht hnh
        | EMPTY => rw [clickSpace_empty W H s p hf' ht]; simp
        | MINE => rw [clickSpace_mine W H s p hf' ht]; simp

/-- A 1×1 board with no mines, its single cell hidden — the spec's
"1×1 board, 0 mines" scenario. -/
def wbWin : BoardState := { spaces := fun _ => ⟨Piece.HIDDEN, 0, false⟩, piecesLeft := 1 }

/-- Witness for `ms_c4_amended`: revealing the only (non-mine) cell of a
1×1 board immediately yields Won. -/
theorem ms_c4_witness :
    wbWin.piecesLeft = (countIn 1 1 wbWin Piece.HIDDEN : ℤ) ∧
    (clickSpace 1 1 wbWin (0, 0)).2 = Outcome.won :=
  ⟨by decide,
    ((ms_c4_amended 1 1 wbWin (0, 0) (by decide)).2.1 (by decide) (by decide)).mpr
      (by decide)⟩

lemma updSpace_updSpace (s : BoardState) (p : ℤ × ℤ) (v1 v2 : Space) :
    updSpace (updSpace s p v1) p v2 = updSpace s p v2 := by
  unfold updSpace
  simp only
  congr 1
  funext q
  by_cases hq : q = p <;> simp [hq]

lemma updSpace_self (s : BoardState) (p : ℤ × ℤ) (v : Space) (hv : v = s.spaces p) :
    updSpace s p v = s := by
  cases s with
  | mk sp pl =>
      unfold updSpace
      simp only
      congr 1
      funext q
      by_cases hq : q = p <;> simp [hq, hv]

/-- A 2×1 board: a mine at (0,0), a hidden count-1 cell at (1,0). -/
def wb5 : BoardState :=
  { spaces := fun p => if p = (0, 0) then ⟨Piece.MINE, 0, false⟩ else ⟨Piece.HIDDEN, 1, false⟩,
    piecesLeft := 1 }

/-- Counterexample to C5 as stated: after a reveal that enters Lost, a
further reveal call is still processed by the engine and mutates the
board (`ClickSpace`/`RightClickSpace` consult no terminal-state flag; the
post-loss block is the modal Game Over window of the presentation layer,
and baby mode deliberately continues on the same board). -/
theorem ms_c5_cex :
    (clickSpace 2 1 wb5 (0, 0)).2 = Outcome.lost ∧
    (((clickSpace 2 1 wb5 (0, 0)).1).spaces (1, 0)).type = Piece.HIDDEN ∧
    (((clickSpace 2 1 (clickSpace 2 1 wb5 (0, 0)).1 (1, 0)).1).spaces (1, 0)).type =
      Piece.EMPTY := by decide

/-- C5 (amended): the engine itself performs no terminal-state rejection.
A reveal of an unflagged mine reports Lost and leaves the state unchanged,
and on that very same post-loss state a further reveal of an unflagged
hidden cell is processed normally and reveals it (this is exactly what
baby mode exposes); blocking input after Won/Lost is the modal popup of
the presentation layer, not the engine. -/
theorem ms_c5_amended (W H : ℕ) (s : BoardState) (p q : ℤ × ℤ)
    (hm : (s.spaces p).type = Piece.MINE) (hmf : (s.spaces p).flag = false)
    (hqb : inB W H q) (hqh : (s.spaces q).type = Piece.HIDDEN)
    (hqf : (s.spaces q).flag = false) :
    clickSpace W H s p = (s, Outcome.lost) ∧
    (((clickSpace W H (clickSpace W H s p).1 q).1).spaces q).type = Piece.EMPTY := by
  have h1 := clickSpace_mine W H s p hmf hm
  refine ⟨h1, ?_⟩
  rw [h1]
  simp only
  rw [clickSpace_hidden W H s q hqf hqh]
  simp only
  exact revealEmpty_target W H (boardFuel W H) s q (by unfold boardFuel; omega) hqb hqh

/-- Witness for `ms_c5_amended` on the concrete 2×1 board. -/
theorem ms_c5_witness :
    (wb5.spaces (0, 0)).type = Piece.MINE ∧
    (((clickSpace 2 1 (clickSpace 2 1 wb5 (0, 0)).1 (1, 0)).1).spaces (1, 0)).type =
      Piece.EMPTY :=
  ⟨by decide,
    (ms_c5_amended 2 1 wb5 (0, 0) (1, 0) (by decide) (by decide) (by decide) (by decide)
      (by decide)).2⟩

/-- A 2×1 mine-free zero-count board whose cell (1,0) is flagged. -/
def wb6 : BoardState :=
  { spaces := fun p => if p = (1, 0) then ⟨Piece.HIDDEN, 0, true⟩ else ⟨Piece.HIDDEN, 0, false⟩,
    piecesLeft := 2 }

/-- Counterexample to C6 as stated: a flagged hidden cell reached by the
flood-fill propagation does NOT keep its flag and does NOT stay hidden —
`RevealEmpty` force-removes the flag and reveals the cell (the source
comments this explicitly: "Remove flag on piece being revealed (only
happens to spaces recursively revealed)"). -/
theorem ms_c6_cex :
    (wb6.spaces (1, 0)).flag = true ∧ (wb6.spaces (1, 0)).type = Piece.HIDDEN ∧
    (((clickSpace 2 1 wb6 (0, 0)).1).spaces (1, 0)).type = Piece.EMPTY ∧
    (((clickSpace 2 1 wb6 (0, 0)).1).spaces (1, 0)).flag = false := by decide

/-- C6 (amended): a reveal click aimed directly at a flagged cell is
rejected with no state change whatsoever (the flag must first be removed
via `RightClickSpace`), but a flagged hidden cell that `RevealEmpty`
reaches (as during flood-fill propagation) is revealed and its flag is
force-removed. -/
theorem ms_c6_amended (W H : ℕ) (s : BoardState) (p : ℤ × ℤ)
    (hf : (s.spaces p).flag = true) :
    clickSpace W H s p = (s, Outcome.quiet) ∧
    (∀ (fuel : ℕ) (u : BoardState) (q : ℤ × ℤ), 1 ≤ fuel → inB W H q →
      (u.spaces q).type = Piece.HIDDEN →
      ((revealEmpty W H fuel u q).spaces q).type = Piece.EMPTY ∧
      ((revealEmpty W H fuel u q).spaces q).flag = false) := by
  refine ⟨clickSpace_flag W H s p hf, ?_⟩
  intro fuel u q hfu hb hh
  have ht := revealEmpty_target W H fuel u q hfu hb hh
  refine ⟨ht, ?_⟩
  rcases evolves_revealEmpty W H fuel u q q with heq | ⟨_, _, hfl⟩
  · rw [heq, hh] at ht; cases ht
  · rw [hfl]; rfl

/-- A 1×1 board with a flagged hidden cell, used to witness `ms_c6_amended`. -/
def wb6f : BoardState := { spaces := fun _ => ⟨Piece.HIDDEN, 0, true⟩, piecesLeft := 1 }

/-- Witness for `ms_c6_amended`: the direct click on the flagged cell is a
no-op. -/
theorem ms_c6_witness :
    (wb6f.spaces (0, 0)).flag = true ∧ clickSpace 1 1 wb6f (0, 0) = (wb6f, Outcome.quiet) :=
  ⟨by decide, (ms_c6_amended 1 1 wb6f (0, 0) (by decide)).1⟩

/-- C9: on a non-revealed cell, toggling the flag twice restores the whole
board state exactly; a single toggle flips only the flag bit of that cell
(Hidden→Flagged-Hidden or back), reveals nothing, and leaves
`pieces_left` untouched. -/
theorem ms_c9 (s : BoardState) (p : ℤ × ℤ)
    (hnr : (s.spaces p).type ≠ Piece.EMPTY) :
    rightClickSpace (rightClickSpace s p) p = s ∧
    ((rightClickSpace s p).spaces p).flag = !(s.spaces p).flag ∧
    (∀ q, ((rightClickSpace s p).spaces q).type = (s.spaces q).type) ∧
    (∀ q, ((rightClickSpace s p).spaces q).count = (s.spaces q).count) ∧
    (rightClickSpace s p).piecesLeft = s.piecesLeft := by
  have hcond : (s.spaces p).type = Piece.MINE ∨ (s.spaces p).type = Piece.HIDDEN := by
    cases h : (s.spaces p).type with
    | HIDDEN => exact Or.inr rfl
    | EMPTY => exact absurd h hnr
    | MINE => exact Or.inl rfl
  have h1 : rightClickSpace s p =
      updSpace s p { s.spaces p with flag := !(s.spaces p).flag } := by
    unfold rightClickSpace
    rw [if_pos hcond]
  have hsp1 : (updSpace s p { s.spaces p with flag := !(s.spaces p).flag }).spaces p =
      { s.spaces p with flag := !(s.spaces p).flag } := by
    simp [updSpace_spaces]
  refine ⟨?_, ?_, ?_, ?_, ?_⟩
  · rw [h1]
    unfold rightClickSpace
    rw [hsp1]
    rw [if_pos hcond]
    rw [updSpace_updSpace]
    apply updSpace_self
    simp [Bool.not_not]
  · rw [h1, hsp1]
  · intro q
    rw [h1]
    by_cases hq : q = p
    · subst hq; rw [hsp1]
    · simp [updSpace_spaces, hq]
  · intro q
    rw [h1]
    by_cases hq : q = p
    · subst hq; rw [hsp1]
    · simp [updSpace_spaces, hq]
  · rw [h1, updSpace_piecesLeft]

/-- A 1×1 board with its single cell hidden and unflagged. -/
def wb9 : BoardState := { spaces := fun _ => ⟨Piece.HIDDEN, 0, false⟩, piecesLeft := 1 }

/-- Witness for `ms_c9`: the double toggle restores the concrete board and
the first toggle sets the flag. -/
theorem ms_c9_witness :
    (wb9.spaces (0, 0)).type ≠ Piece.EMPTY ∧
    rightClickSpace (rightClickSpace wb9 (0, 0)) (0, 0) = wb9 ∧
    ((rightClickSpace wb9 (0, 0)).spaces (0, 0)).flag = true :=
  ⟨by decide, (ms_c9 wb9 (0, 0) (by decide)).1, by
    rw [(ms_c9 wb9 (0, 0) (by decide)).2.1]; decide⟩

/-- C10: a reveal that targets an unflagged mine returns the state
entirely unchanged, reporting only the Lost outcome — the mine cell stays
in its hidden `MINE` state, no other cell or flag changes, and
`pieces_left` keeps its value; moreover `RevealEmpty` invoked directly on
any mine coordinate is a complete no-op. -/
theorem ms_c10 (W H : ℕ) (s : BoardState) (p : ℤ × ℤ)
    (hm : (s.spaces p).type = Piece.MINE) (hf : (s.spaces p).flag = false) :
    clickSpace W H s p = (s, Outcome.lost) ∧
    (∀ (fuel : ℕ) (u : BoardState) (q : ℤ × ℤ), (u.spaces q).type = Piece.MINE →
      revealEmpty W H fuel u q = u) := by
  refine ⟨clickSpace_mine W H s p hf hm, ?_⟩
  intro fuel u q hq
  cases fuel with
  | zero => rfl
  | succ fuel =>
      rw [revealEmpty_succ]
      by_cases hb : inB W H q
      · simp [hb, hq]
      · simp [hb]

/-- A 1×1 board with an unflagged mine. -/
def wb10 : BoardState := { spaces := fun _ => ⟨Piece.MINE, 0, false⟩, piecesLeft := 0 }

/-- Witness for `ms_c10`: clicking the unflagged mine loses and changes
nothing. -/
theorem ms_c10_witness :
    (wb10.spaces (0, 0)).type = Piece.MINE ∧
    clickSpace 1 1 wb10 (0, 0) = (wb10, Outcome.lost) :=
  ⟨by decide, (ms_c10 1 1 wb10 (0, 0) (by decide) (by decide)).1⟩

lemma mem_nbrs (p q : ℤ × ℤ) :
    q ∈ nbrs p ↔
      (q ≠ p ∧ p.1 - 1 ≤ q.1 ∧ q.1 ≤ p.1 + 1 ∧ p.2 - 1 ≤ q.2 ∧ q.2 ≤ p.2 + 1) := by
  rcases p with ⟨x, y⟩
  rcases q with ⟨a, b⟩
  simp only [nbrs, List.mem_cons, List.mem_singleton, List.not_mem_nil, Prod.mk.injEq,
    ne_eq, or_false]
  omega

lemma nbrs_symm (p q : ℤ × ℤ) : q ∈ nbrs p ↔ p ∈ nbrs q := by
  rcases p with ⟨x, y⟩
  rcases q with ⟨a, b⟩
  rw [mem_nbrs, mem_nbrs]
  simp only [ne_eq, Prod.mk.injEq]
  omega

lemma nbrs_nodup (p : ℤ × ℤ) : (nbrs p).Nodup := by
  rcases p with ⟨x, y⟩
  simp [nbrs, List.nodup_cons, Prod.ext_iff]
  omega

lemma addCount_type (W H : ℕ) (s : BoardState) (a z : ℤ × ℤ) :
    ((addCount W H s a).spaces z).type = (s.spaces z).type := by
  unfold addCount
  by_cases hb : inB W H a
  · simp only [hb, if_true, updSpace_spaces]
    by_cases hz : z = a
    · subst hz; simp
    · simp [hz]
  · simp [hb]

lemma addCount_count (W H : ℕ) (s : BoardState) (a z : ℤ × ℤ) :
    ((addCount W H s a).spaces z).count =
      (s.spaces z).count + (if z = a ∧ inB W H a then 1 else 0) := by
  unfold addCount
  by_cases hb : inB W H a
  · simp only [hb, if_true, updSpace_spaces]
    by_cases hz : z = a
    · subst hz; simp [hb]
    · simp [hz]
  · simp [hb]

lemma addCounts_type (W H : ℕ) :
    ∀ (l : List (ℤ × ℤ)) (s : BoardState) (z : ℤ × ℤ),
      ((addCounts W H s l).spaces z).type = (s.spaces z).type := by
  intro l
  induction l with
  | nil => intro s z; rfl
  | cons a rest ih =>
      intro s z
      show ((addCounts W H (addCount W H s a) rest).spaces z).type = _
      rw [ih, addCount_type]

lemma addCounts_count (W H : ℕ) :
    ∀ (l : List (ℤ × ℤ)), l.Nodup → ∀ (s : BoardState) (z : ℤ × ℤ),
      ((addCounts W H s l).spaces z).count =
        (s.spaces z).count + (if z ∈ l ∧ inB W H z then 1 else 0) := by
  intro l
  induction l with
  | nil => intro _ s z; simp [addCounts]
  | cons a rest ih =>
      intro hnd s z
      rw [List.nodup_cons] at hnd
      show ((addCounts W H (addCount W H s a) rest).spaces z).count = _
      rw [ih hnd.2, addCount_count]
      by_cases hz : z = a
      · subst hz
        by_cases hbz : inB W H z
        · simp [hbz, hnd.1]
        · simp [hbz, hnd.1]
      · by_cases hzr : z ∈ rest
        · simp [hz, hzr]
        · simp [hz, hzr]

lemma placeMineAt_type (W H : ℕ) (s : BoardState) (d z : ℤ × ℤ) :
    ((placeMineAt W H s d).spaces z).type =
      if z = d then Piece.MINE else (s.spaces z).type := by
  unfold placeMineAt
  rw [addCounts_type]
  by_cases hz : z = d
  · subst hz; simp [updSpace_spaces]
  · simp [updSpace_spaces, hz]

lemma placeMineAt_count (W H : ℕ) (s : BoardState) (d z : ℤ × ℤ) :
    ((placeMineAt W H s d).spaces z).count =
      (s.spaces z).count + (if z ∈ nbrs d ∧ inB W H z then 1 else 0) := by
  unfold placeMineAt
  rw [addCounts_count W H (nbrs d) (nbrs_nodup d)]
  have hcnt : ((updSpace s d { s.spaces d with type := Piece.MINE }).spaces z).count =
      (s.spaces z).count := by
    by_cases hz : z = d
    · subst hz; simp [updSpace_spaces]
    · simp [updSpace_spaces, hz]
  rw [hcnt]

lemma countP_switch {α : Type} [DecidableEq α] (d : α) :
    ∀ (l : List α) (pr1 pr2 : α → Bool), l.Nodup →
      (∀ x ∈ l, x ≠ d → pr1 x = pr2 x) → pr1 d = false → pr2 d = true →
      l.countP pr2 = l.countP pr1 + (if d ∈ l then 1 else 0) := by
  intro l
  induction l with
  | nil => intro pr1 pr2 _ _ _ _; simp
  | cons a rest ih =>
      intro pr1 pr2 hnd hagree h1 h2
      rw [List.nodup_cons] at hnd
      rw [List.countP_cons, List.countP_cons]
      by_cases had : a = d
      · subst had
        have hrest : rest.countP pr2 = rest.countP pr1 := by
          apply List.countP_congr
          intro x hx
          have hxa : x ≠ a := fun hxe => hnd.1 (hxe ▸ hx)
          rw [hagree x (List.mem_cons_of_mem a hx) hxa]
        rw [h1, h2, hrest]
        simp
      · have hpa : pr1 a = pr2 a := hagree a (List.mem_cons_self a rest) had
        rw [← hpa, ih pr1 pr2 hnd.2 (fun x hx hxd => hagree x (List.mem_cons_of_mem a hx) hxd)
          h1 h2]
        have hmem : (d ∈ a :: rest) ↔ (d ∈ rest) := by
          simp only [List.mem_cons]
          constructor
          · rintro (rfl | h)
            · exact absurd rfl had
            · exact h
          · exact Or.inr
        rw [if_congr hmem rfl rfl]
        omega

lemma adjMines_placeMineAt (W H : ℕ) (s : BoardState) (d : ℤ × ℤ)
    (hdm : (s.spaces d).type ≠ Piece.MINE) (z : ℤ × ℤ) :
    adjMines W H (placeMineAt W H s d) z =
      adjMines W H s z + (if d ∈ nbrs z ∧ inB W H d then 1 else 0) := by
  unfold adjMines
  rw [← List.countP_eq_length_filter, ← List.countP_eq_length_filter]
  by_cases hbd : inB W H d
  · have hsw := countP_switch d (nbrs z)
      (fun q => decide (inB W H q) && decide ((s.spaces q).type = Piece.MINE))
      (fun q => decide (inB W H q) && decide (((placeMineAt W H s d).spaces q).type =
        Piece.MINE))
      (nbrs_nodup z)
      (by
        intro x _ hxd
        simp only [placeMineAt_type]
        rw [if_neg hxd])
      (by simp [hdm])
      (by simp [hbd, placeMineAt_type])
    rw [hsw]
    simp [hbd]
  · have hsame : (nbrs z).countP
        (fun q => decide (inB W H q) && decide (((placeMineAt W H s d).spaces q).type =
          Piece.MINE)) =
        (nbrs z).countP
        (fun q => decide (inB W H q) && decide ((s.spaces q).type = Piece.MINE)) := by
      apply List.countP_congr
      intro x _
      by_cases hxd : x = d
      · subst hxd; simp [hbd]
      · simp only [Bool.and_eq_true, decide_eq_true_eq, placeMineAt_type]
        rw [if_neg hxd]
    rw [hsame]
    simp [hbd]

lemma pickSpot_nil (s : BoardState) : pickSpot s [] = none := rfl

lemma pickSpot_cons (s : BoardState) (a : ℤ × ℤ) (rest : List (ℤ × ℤ)) :
    pickSpot s (a :: rest) =
      if (s.spaces a).type = Piece.MINE then pickSpot s rest else some (a, rest) := rfl

lemma placeMines_zero (W H : ℕ) (s : BoardState) (draws : List (ℤ × ℤ)) :
    placeMines W H 0 s draws = some s := rfl

lemma placeMines_succ (W H n : ℕ) (s : BoardState) (draws : List (ℤ × ℤ)) :
    placeMines W H (n + 1) s draws =
      match pickSpot s draws with
      | none => none
      | some (d, rest) => placeMines W H n (placeMineAt W H s d) rest := rfl

lemma pickSpot_spec (s : BoardState) :
    ∀ (l : List (ℤ × ℤ)) (d : ℤ × ℤ) (rest : List (ℤ × ℤ)),
      pickSpot s l = some (d, rest) →
      d ∈ l ∧ (s.spaces d).type ≠ Piece.MINE ∧ ∀ x ∈ rest, x ∈ l := by
  intro l
  induction l with
  | nil => intro d rest h; rw [pickSpot_nil] at h; cases h
  | cons a tail ih =>
      intro d rest h
      rw [pickSpot_cons] at h
      by_cases hm : (s.spaces a).type = Piece.MINE
      · rw [if_pos hm] at h
        obtain ⟨h1, h2, h3⟩ := ih d rest h
        exact ⟨List.mem_cons_of_mem a h1, h2, fun x hx => List.mem_cons_of_mem a (h3 x hx)⟩
      · rw [if_neg hm] at h
        have hpair : a = d ∧ tail = rest := by
          have h2 := h
          simp only [Option.some.injEq, Prod.mk.injEq] at h2
          exact h2
        obtain ⟨rfl, rfl⟩ := hpair
        exact ⟨List.mem_cons_self a tail, hm, fun x hx => List.mem_cons_of_mem a hx⟩

lemma countIn_congr (W H : ℕ) {s s' : BoardState}
    (h : ∀ q, (s'.spaces q).type = (s.spaces q).type) (t : Piece) :
    countIn W H s' t = countIn W H s t := by
  unfold countIn
  congr 1
  apply Finset.filter_congr
  intro q _
  rw [h q]

lemma countIn_placeMineAt_mine (W H : ℕ) (s : BoardState) (d : ℤ × ℤ)
    (hbd : inB W H d) (hdm : (s.spaces d).type ≠ Piece.MINE) :
    countIn W H (placeMineAt W H s d) Piece.MINE = countIn W H s Piece.MINE + 1 := by
  unfold placeMineAt
  rw [countIn_congr W H (fun q => addCounts_type W H (nbrs d) _ q) Piece.MINE]
  exact countIn_updSpace_add_one W H s d _ _ hbd rfl hdm

/-- The placement loop preserves count consistency and adds exactly one
mine per iteration (the accepted spot is always a fresh non-mine cell). -/
lemma placeMines_facts (W H : ℕ) :
    ∀ (n : ℕ) (s : BoardState) (draws : List (ℤ × ℤ)) (t : BoardState),
      (∀ d ∈ draws, inB W H d) → placeMines W H n s draws = some t →
      ((consistent W H s → consistent W H t) ∧
        countIn W H t Piece.MINE = countIn W H s Piece.MINE + n) := by
  intro n
  induction n with
  | zero =>
      intro s draws t _ h
      rw [placeMines_zero] at h
      injection h with h
      subst h
      exact ⟨id, by omega⟩
  | succ n ih =>
      intro s draws t hin h
      rw [placeMines_succ] at h
      cases hps : pickSpot s draws with
      | none => rw [hps] at h; cases h
      | some dr =>
          obtain ⟨d, rest⟩ := dr
          rw [hps] at h
          have h' : placeMines W H n (placeMineAt W H s d) rest = some t := h
          obtain ⟨hd, hdm, hsub⟩ := pickSpot_spec s draws d rest hps
          have hbd : inB W H d := hin d hd
          have hin' : ∀ x ∈ rest, inB W H x := fun x hx => hin x (hsub x hx)
          obtain ⟨hcons', hcount'⟩ := ih (placeMineAt W H s d) rest t hin' h'
          constructor
          · intro hcons
            apply hcons'
            intro z hz
            rw [placeMineAt_count, adjMines_placeMineAt W H s d hdm z, hcons z hz]
            have hzin : inB W H z := mem_gridPts.mp hz
            have hzn : (z ∈ nbrs d) ↔ (d ∈ nbrs z) := nbrs_symm d z
            by_cases hdz : d ∈ nbrs z
            · rw [if_pos ⟨hzn.mpr hdz, hzin⟩, if_pos ⟨hdz, hbd⟩]
            · rw [if_neg (fun hc => hdz (hzn.mp hc.1)), if_neg (fun hc => hdz hc.1)]
          · rw [hcount', countIn_placeMineAt_mine W H s d hbd hdm]
            omega

/-- Each placement iteration succeeds whenever the draw list still holds a
fresh spot; with a duplicate-free in-range draw list of length at least
`n`, the whole loop succeeds. -/
lemma placeMines_succeeds (W H : ℕ) :
    ∀ (n : ℕ) (l : List (ℤ × ℤ)) (s : BoardState), l.Nodup →
      (∀ d ∈ l, (s.spaces d).type ≠ Piece.MINE) → n ≤ l.length →
      (placeMines W H n s l).isSome := by
  intro n
  induction n with
  | zero => intro l s _ _ _; rw [placeMines_zero]; rfl
  | succ n ih =>
      intro l s hnd hfree hlen
      cases l with
      | nil => simp at hlen
      | cons a tail =>
          rw [placeMines_succ]
          have hpick : pickSpot s (a :: tail) = some (a, tail) := by
            rw [pickSpot_cons, if_neg (hfree a (List.mem_cons_self a tail))]
          rw [hpick]
          show (placeMines W H n (placeMineAt W H s a) tail).isSome
          rw [List.nodup_cons] at hnd
          refine ih tail (placeMineAt W H s a) hnd.2 ?_ ?_
          · intro d hd
            rw [placeMineAt_type, if_neg (by intro hde; exact hnd.1 (hde ▸ hd))]
            exact hfree d (List.mem_cons_of_mem a hd)
          · simp only [List.length_cons] at hlen
            omega

lemma consistent_clear (W H : ℕ) (pl : ℤ) :
    consistent W H { spaces := clearSpaces, piecesLeft := pl } := by
  intro p _
  show (0 : ℕ) = adjMines W H { spaces := clearSpaces, piecesLeft := pl } p
  unfold adjMines
  have hnil : ∀ q ∈ nbrs p,
      ¬((decide (inB W H q) &&
        decide ((({ spaces := clearSpaces, piecesLeft := pl } : BoardState).spaces q).type =
          Piece.MINE)) = true) := by
    intro q _
    simp [clearSpaces]
  rw [List.filter_eq_nil_iff.mpr hnil]
  rfl

lemma countIn_clear_mine (W H : ℕ) (pl : ℤ) :
    countIn W H { spaces := clearSpaces, piecesLeft := pl } Piece.MINE = 0 := by
  unfold countIn
  rw [Finset.card_eq_zero]
  apply Finset.filter_eq_empty_iff.mpr
  intro q _
  simp [clearSpaces]

/-- A duplicate-free enumeration of every board position, the draw list
under which the rejection sampler is guaranteed to finish. -/
def gridList (W H : ℕ) : List (ℤ × ℤ) :=
  ((List.range W) ×ˢ (List.range H)).map fun ij => ((ij.1 : ℤ), (ij.2 : ℤ))

lemma gridList_nodup (W H : ℕ) : (gridList W H).Nodup := by
  apply List.Nodup.map
  · rintro ⟨a, b⟩ ⟨c, d⟩ h
    simp only [Prod.mk.injEq, Int.natCast_inj] at h
    simp [Prod.ext_iff, h.1, h.2]
  · exact (List.nodup_range W).product (List.nodup_range H)

lemma gridList_length (W H : ℕ) : (gridList W H).length = W * H := by
  unfold gridList
  rw [List.length_map, List.length_product, List.length_range, List.length_range]

lemma gridList_inB (W H : ℕ) : ∀ d ∈ gridList W H, inB W H d := by
  intro d hd
  obtain ⟨⟨i, j⟩, hij, rfl⟩ := List.mem_map.mp hd
  rw [List.mem_product] at hij
  simp only [List.mem_range] at hij
  exact ⟨by positivity, by simpa using hij.1, by positivity, by simpa using hij.2⟩

/-- C3: with `0 ≤ mine_count ≤ width*height`, generation terminates for
any draw sequence that keeps proposing fresh cells — witnessed by the
full-board enumeration — and every successful run produces a board with
exactly `mine_count` mine cells (each placement having selected a cell
that was not yet a mine, so no two placements coincide). -/
theorem ms_c3 (W H M : ℕ) (hM : M ≤ W * H) :
    (∃ draws : List (ℤ × ℤ),
      (∀ d ∈ draws, inB W H d) ∧ (generateBoard W H M draws).isSome = true) ∧
    (∀ (draws : List (ℤ × ℤ)) (s : BoardState), (∀ d ∈ draws, inB W H d) →
      generateBoard W H M draws = some s → countIn W H s Piece.MINE = M) := by
  constructor
  · refine ⟨gridList W H, gridList_inB W H, ?_⟩
    apply placeMines_succeeds W H M (gridList W H) _ (gridList_nodup W H)
    · intro d _
      simp [clearSpaces]
    · rw [gridList_length]
      exact hM
  · intro draws s hin hgen
    have := (placeMines_facts W H M _ draws s hin hgen).2
    rw [countIn_clear_mine] at this
    omega

/-- The board produced by generating a 1×1 board holding a single mine
from the draw list `[(0, 0)]`. -/
def c3wit : BoardState :=
  (generateBoard 1 1 1 [((0 : ℤ), (0 : ℤ))]).getD { spaces := clearSpaces, piecesLeft := 0 }

/-- Witness for `ms_c3`: the all-mine 1×1 generation run yields exactly one
mine. -/
theorem ms_c3_witness : countIn 1 1 c3wit Piece.MINE = 1 :=
  (ms_c3 1 1 1 (by decide)).2 [((0 : ℤ), (0 : ℤ))] c3wit (by decide) rfl

lemma rightClickSpace_count (u : BoardState) (p q : ℤ × ℤ) :
    ((rightClickSpace u p).spaces q).count = (u.spaces q).count := by
  unfold rightClickSpace
  by_cases hc : (u.spaces p).type = Piece.MINE ∨ (u.spaces p).type = Piece.HIDDEN
  · rw [if_pos hc]
    by_cases hq : q = p
    · subst hq; simp [updSpace_spaces]
    · simp [updSpace_spaces, hq]
  · rw [if_neg hc]

lemma clickSpace_count (W H : ℕ) (u : BoardState) (p q : ℤ × ℤ) :
    (((clickSpace W H u p).1).spaces q).count = (u.spaces q).count := by
  by_cases hf : (u.spaces p).flag
  · rw [clickSpace_flag W H u p hf]
  · have hf' : (u.spaces p).flag = false := by simp at hf; exact hf
    cases ht : (u.spaces p).type with
    | HIDDEN =>
        rw [clickSpace_hidden W H u p hf' ht]
        exact (evolves_revealEmpty W H (boardFuel W H) u p).count_eq q
    | EMPTY => rw [clickSpace_empty W H u p hf' ht]
    | MINE => rw [clickSpace_mine W H u p hf' ht]

/-- C2: every successfully generated board is count-consistent — each
cell's `adjacent_mine_count` equals the number of mines in its
edge-clipped Moore neighbourhood — and neither reveal (`ClickSpace`,
cascade included) nor flag toggling (`RightClickSpace`) ever changes any
cell's count afterwards. -/
theorem ms_c2 (W H M : ℕ) (draws : List (ℤ × ℤ)) (s : BoardState)
    (hin : ∀ d ∈ draws, inB W H d) (hgen : generateBoard W H M draws = some s) :
    consistent W H s ∧
    (∀ (u : BoardState) (p q : ℤ × ℤ),
      (((clickSpace W H u p).1).spaces q).count = (u.spaces q).count ∧
      ((rightClickSpace u p).spaces q).count = (u.spaces q).count) := by
  constructor
  · exact (placeMines_facts W H M _ draws s hin hgen).1 (consistent_clear W H _)
  · intro u p q
    exact ⟨clickSpace_count W H u p q, rightClickSpace_count u p q⟩

/-- The board generated on a 1×2 board with one mine at (0,0). -/
def c2wit : BoardState :=
  (generateBoard 1 2 1 [((0 : ℤ), (0 : ℤ))]).getD { spaces := clearSpaces, piecesLeft := 0 }

/-- Witness for `ms_c2`: the generated 1×2 one-mine board is consistent,
and a flag toggle keeps the count of the flagged cell. -/
theorem ms_c2_witness :
    consistent 1 2 c2wit ∧
    ((rightClickSpace c2wit ((0 : ℤ), (1 : ℤ))).spaces ((0 : ℤ), (1 : ℤ))).count =
      (c2wit.spaces ((0 : ℤ), (1 : ℤ))).count :=
  ⟨(ms_c2 1 2 1 [((0 : ℤ), (0 : ℤ))] c2wit (by decide) rfl).1,
    ((ms_c2 1 2 1 [((0 : ℤ), (0 : ℤ))] c2wit (by decide) rfl).2 c2wit ((0 : ℤ), (1 : ℤ))
      ((0 : ℤ), (1 : ℤ))).2⟩

/-- C7 is decided by the source text itself.  At startup (module top
level) an oversized `TOTAL_MINES` is indeed clamped to the board size.
But in `NewGame` the clamp is broken twice: the corrective assignment
sits under `elif PRINT_DEBUG_INFO`, so with debug printing off an
oversized request leaves the old `TOTAL_MINES` in place, and even with
debug printing on it assigns `new_m * new_h` instead of
`new_w * new_h`.  Evaluated here at the failing input (old total 60, new
board 2×2, requested 5 mines): the claimed result would be 4, the code
keeps 60 (debug off) or sets 10 (debug on). -/
theorem ms_c7 :
    startupMines 2 2 5 = 4 ∧
    newGameMines 60 2 2 5 false = 60 ∧
    newGameMines 60 2 2 5 true = 10 := by decide

end Pynesweeper
